import Mathlib

/-!
Verification of the myrient-sync mirroring tool (src/myrient_sync/myrient_sync.py)
against its natural-language specification.

Paths, patterns and entry names are modelled as lists of characters.  Pure
helpers of the Python source (the exclude-pattern regex, the listing-name
validation regex, the breadth-first tree walk, the per-file download state
machine, the retry loop and the final counter/exit-code aggregation) are
translated into executable Lean definitions; network responses and the local
filesystem become explicit values.
-/

namespace MyrientSync

/-- A remote or local path, as a sequence of characters. -/
abbrev Path := List Char

/-! ## PathMatcher (compile_exclude_patterns)

The source compiles each pattern into the regex
`'^/' + re.escape(pattern).replace(r'\*', '[^/]*') + '(?:/.*)?$'`
and ORs the per-pattern regexes together; an empty pattern list yields
`nothing_re = re.compile('$^')`, which matches only the empty string. -/

/-- The `[^/]*` wildcard: consume any run of non-separator characters, then
match the remainder with the continuation `f`. -/
def starLoop (f : List Char → Bool) : List Char → Bool
  | [] => f []
  | c :: xs => f (c :: xs) || (c != '/' && starLoop f xs)

/-- The `.*$` step of the compiled tail: without `re.DOTALL`, `.` matches
any character except a newline, and without `re.MULTILINE`, `$` matches at
the end of the string or just before a single trailing newline.  So `.*$`
accepts a remainder containing no newline except possibly as its final
character. -/
def dotStarEnd : List Char → Bool
  | [] => true
  | c :: w => if c = '\n' then w.isEmpty else dotStarEnd w

/-- The `(?:/.*)?$` tail at the end of a compiled per-pattern regex: either
the optional group is skipped and `$` holds (remainder empty or a single
trailing newline), or the remainder is `'/'` followed by a string accepted
by `.*$`. -/
def matchEnd : List Char → Bool
  | [] => true
  | c :: w => if c = '/' then dotStarEnd w else c == '\n' && w.isEmpty

/-- Translation of one compiled per-pattern regex matched against `'/' :: xs`:
every character of the pattern other than `'*'` is literal, `'*'` matches a
run of non-separator characters (including newlines, as `[^/]` does), and
after the pattern is exhausted the remainder must satisfy the `(?:/.*)?$`
tail with Python's newline conventions for `$` and `.`. -/
def matchPat : List Char → List Char → Bool
  | [], xs => matchEnd xs
  | p :: ps, xs =>
    if p == '*' then starLoop (matchPat ps) xs
    else
      match xs with
      | [] => false
      | c :: xs' => p == c && matchPat ps xs'

/-- The compiled exclude matcher applied to a path, translating
`compile_exclude_patterns(patterns).match(x)`: with no patterns the compiled
regex is `'$^'`, which matches exactly the empty string and the single
newline string (`$` before a trailing newline, then `^` at position zero);
otherwise the alternation of the per-pattern regexes, each anchored at a
leading `'/'`. -/
def excludes (patterns : List (List Char)) (x : Path) : Bool :=
  if patterns.isEmpty then x == [] || x == ['\n']
  else patterns.any fun p =>
    match x with
    | '/' :: xs => matchPat p xs
    | _ => false

/-! Specification-side semantics for claim C1: a pattern matches a string when
each `'*'` matches zero or more non-`'/'` characters and every other pattern
character matches itself literally. -/

/-- Modelled from the spec: the glob-match relation of one exclude pattern
against a string (`'*'` = any run of non-separator characters, all other
characters literal). -/
inductive GlobM : List Char → List Char → Prop
  | nil : GlobM [] []
  | lit (p : Char) (ps xs : List Char) : p ≠ '*' → GlobM ps xs → GlobM (p :: ps) (p :: xs)
  | star (ps s xs : List Char) : (∀ c ∈ s, c ≠ '/') → GlobM ps xs →
      GlobM ('*' :: ps) (s ++ xs)

/-- Modelled from the spec: a pattern list excludes an absolute path `x` iff
some pattern in the list, anchored at the root, matches `x` exactly or `x` is
the pattern's path followed by `'/'` and an arbitrary suffix. -/
def specExcludes (patterns : List (List Char)) (x : Path) : Prop :=
  ∃ p ∈ patterns, ∃ y, GlobM p y ∧ (x = '/' :: y ∨ ∃ t, x = '/' :: (y ++ '/' :: t))

/-- Executable exact glob matching (no directory-suffix tail), used to relate
the matchers to the spec-side relation `GlobM`. -/
def globExact : List Char → List Char → Bool
  | [], xs => xs.isEmpty
  | p :: ps, xs =>
    if p == '*' then starLoop (globExact ps) xs
    else
      match xs with
      | [] => false
      | c :: xs' => p == c && globExact ps xs'

/-- Executable form of the claim's spec-side per-pattern semantics: the
pattern matches the remainder exactly, or a prefix of it ending at a `'/'`
(the remainder "empty or `'/'` plus any suffix" reading of the tail, with no
newline provision).  Used to evaluate `specExcludes` at concrete inputs. -/
def specMatch : List Char → List Char → Bool
  | [], [] => true
  | [], c :: _ => c == '/'
  | p :: ps, xs =>
    if p == '*' then starLoop (specMatch ps) xs
    else
      match xs with
      | [] => false
      | c :: xs' => p == c && specMatch ps xs'

/-- Modelled from the amended claim: a pattern list excludes an absolute
path `x` iff some pattern, anchored at the root, matches `x` exactly, or
matches `x` up to a single trailing newline (`$` also matches before a final
newline), or `x` is the pattern's path followed by `'/'` and a suffix that
contains no newline except possibly as its final character (`.` does not
match a newline). -/
def specExcludesNl (patterns : List (List Char)) (x : Path) : Prop :=
  ∃ p ∈ patterns, ∃ y, GlobM p y ∧
    (x = '/' :: y ∨ x = '/' :: (y ++ ['\n']) ∨
      ∃ t, x = '/' :: (y ++ '/' :: t) ∧
        ((∀ c ∈ t, c ≠ '\n') ∨ ∃ u, t = u ++ ['\n'] ∧ ∀ c ∈ u, c ≠ '\n'))

/-! ## DirectoryLister (valid_path_re and list_dir)

The source validates each percent-decoded href against
`valid_path_re = ^((?!\.\./)[^/\\]+/)*(?!\.\./)[^/\\]+/?$` and keeps the
entries that match; the response-date attached to each entry is never
consulted by the tree walk, so entries are modelled by their names alone. -/

/-- Translation of the name-validation regex.  `seg` accumulates the
characters of the current path segment; segments are nonempty runs of
characters other than `'/'` and `'\\'`; at each separator the negative
lookahead `(?!\.\./)` has rejected a finished segment equal to `..`; at the
end of the input the final segment is only required to be nonempty. -/
def vpGo : List Char → List Char → Bool
  | seg, [] => !seg.isEmpty
  | seg, c :: rest =>
    if c = '/' then
      !seg.isEmpty && seg != ['.', '.'] && (rest.isEmpty || vpGo [] rest)
    else if c = '\\' then false
    else vpGo (seg ++ [c]) rest

/-- Whether valid_path_re accepts a decoded entry name. -/
def valid_path (name : Path) : Bool := vpGo [] name

/-- Translation of list_dir's filtering: keep exactly the decoded names the
validation regex accepts.  `raw` gives the decoded hrefs served for each
directory. -/
def list_dir (raw : Path → List Path) (p : Path) : List Path :=
  (raw p).filter valid_path

/-! ## TreeWalker (get_file_list) -/

/-- Whether a composed path denotes a sub-directory (`endswith('/')`). -/
def endsSlash (p : Path) : Bool := p.getLast? == some '/'

/-- The walker state: FIFO queue of directories, set of directories already
enqueued, and file paths accumulated so far. -/
structure WalkSt where
  queue : List Path
  seen : List Path
  files : List Path
deriving DecidableEq

/-- Processing of one listing entry, translating the body of the inner loop
of get_file_list: directories are enqueued when unseen and not excluded,
files are appended when not excluded. -/
def procEntry (excl : Path → Bool) (dir : Path) (st : WalkSt) (name : Path) : WalkSt :=
  let sub := dir ++ name
  if endsSlash sub then
    if sub ∈ st.seen ∨ excl sub = true then st
    else ⟨st.queue ++ [sub], sub :: st.seen, st.files⟩
  else if excl sub = true then st
  else ⟨st.queue, st.seen, st.files ++ [sub]⟩

/-- Process every entry of one directory's listing in order. -/
def procDir (listing : Path → List Path) (excl : Path → Bool) (dir : Path)
    (st : WalkSt) : WalkSt :=
  (listing dir).foldl (procEntry excl dir) st

/-- The breadth-first walk loop of get_file_list (the per-directory progress
print is a side effect with no bearing on the result and is dropped).  The
Python loop runs until the queue drains; the fuel argument bounds the number
of iterations, and an exhausted fuel yields `none`, so every `some` result is
a faithfully completed walk. -/
def walkLoop (listing : Path → List Path) (excl : Path → Bool) :
    Nat → WalkSt → Option (List Path × List Path)
  | 0, st =>
    match st.queue with
    | [] => some (st.files, st.seen)
    | _ :: _ => none
  | fuel + 1, st =>
    match st.queue with
    | [] => some (st.files, st.seen)
    | dir :: rest => walkLoop listing excl fuel (procDir listing excl dir ⟨rest, st.seen, st.files⟩)

/-- The final `file_paths.sort()` of get_file_list: sorting in lexicographic
(codepoint) order, via the lexicographic order on `List Char`. -/
def sortPaths (l : List Path) : List Path :=
  List.insertionSort (· ≤ ·) l

/-- get_file_list: walk the remote tree breadth-first from `root`, filtering
entries through valid_path_re and the exclude matcher, then sort the
collected file paths. -/
def get_file_list (raw : Path → List Path) (excl : Path → Bool) (root : Path)
    (fuel : Nat) : Option (List Path) :=
  (walkLoop (list_dir raw) excl fuel ⟨[root], [], []⟩).map fun st => sortPaths st.1

/-- The file paths one processed directory `d` contributes to the walk
result: its non-directory, non-excluded listing entries, in listing order. -/
def filesOf (listing : Path → List Path) (excl : Path → Bool) (d : Path) : List Path :=
  ((listing d).filter fun n => !endsSlash (d ++ n) && !excl (d ++ n)).map fun n => d ++ n

/-- The multiset of file paths contributed by a list of processed
directories. -/
def totalFiles (listing : Path → List Path) (excl : Path → Bool)
    (dirs : List Path) : Multiset Path :=
  (dirs.map fun d => (filesOf listing excl d : Multiset Path)).sum

/-- The directories that the walk enqueues: non-excluded directory children
of the root or of an already-enqueued directory. -/
inductive SeenDir (listing : Path → List Path) (excl : Path → Bool) (root : Path) :
    Path → Prop
  | fromRoot (name : Path) :
      name ∈ listing root → endsSlash (root ++ name) = true →
      excl (root ++ name) = false → SeenDir listing excl root (root ++ name)
  | step (d name : Path) :
      SeenDir listing excl root d → name ∈ listing d →
      endsSlash (d ++ name) = true → excl (d ++ name) = false →
      SeenDir listing excl root (d ++ name)

/-! ## FileSynchronizer (download_file, download_file_with_retry)

The download of one file is modelled as a function of the local filesystem
state visible to it (existence of the destination parent directory, the
destination file, the sibling temporary file) and of the server's reply to
the conditional request.  The result records the sequence of filesystem
states after each effectful step (makedirs; opening the temporary file;
each chunk write; setting the temporary file's modification time together
with the atomic rename), the final state, and either the returned
DownloadStatus or the uncaught Python exception. -/

/-- The per-file outcome values of the source. -/
inductive DownloadStatus
  | Success
  | Skipped
  | Failed
deriving DecidableEq

/-- An HTTP response to a file fetch: status code, optional Last-Modified
timestamp, and the body as a list of chunks. -/
structure Response where
  status : Nat
  lastModified : Option Nat
  body : List (List Nat)
deriving DecidableEq

/-- Either a response or a transport-level (network) error raised by the
fetch. -/
inductive FetchOutcome
  | response (r : Response)
  | transportError
deriving DecidableEq

/-- Uncaught exceptions escaping download_file: a transport error from
requests.get, or the KeyError from the mandatory Last-Modified lookup. -/
inductive RunError
  | transport
  | missingLastModified
deriving DecidableEq

/-- A file on the destination filesystem: content bytes and modification
time. -/
structure LocalFile where
  bytes : List Nat
  mtime : Nat
deriving DecidableEq

/-- The slice of the destination filesystem one file transfer touches. -/
structure FileSystem where
  dirExists : Bool
  dest : Option LocalFile
  tmp : Option LocalFile
deriving DecidableEq

/-- Result of one download_file call: the trace of filesystem states after
each effectful step, the final state, and the status or uncaught
exception. -/
structure DLResult where
  trace : List FileSystem
  finalFs : FileSystem
  result : Except RunError DownloadStatus

/-- The If-Modified-Since precondition sent with the fetch: the destination
file's modification time when it exists. -/
def imsOf (fs : FileSystem) : Option Nat :=
  fs.dest.map LocalFile.mtime

/-- Filesystem states after opening the temporary file (truncated to empty)
and after each successive chunk write; the temporary file's modification
time is not yet meaningful and is modelled as zero until os.utime runs. -/
def tmpWrites (fs1 : FileSystem) (chunks : List (List Nat)) : List FileSystem :=
  (List.range (chunks.length + 1)).map fun i =>
    { fs1 with tmp := some ⟨(chunks.take i).flatten, 0⟩ }

/-- Translation of download_file: create the destination parent directories
(makedirs, before anything else), attach If-Modified-Since when the
destination file exists, fetch, then dispatch on the outcome.  On 200 the
Last-Modified header is looked up (KeyError when absent), the body is
streamed into `<dest>.tmp`, the temporary file's mtime is set to
Last-Modified, and os.replace atomically renames it over the destination. -/
def download_file (fetch : Option Nat → FetchOutcome) (fs0 : FileSystem) : DLResult :=
  let fs1 : FileSystem := { fs0 with dirExists := true }
  match fetch (imsOf fs0) with
  | .transportError => ⟨[fs1], fs1, .error .transport⟩
  | .response r =>
    if r.status = 200 then
      match r.lastModified with
      | none => ⟨[fs1], fs1, .error .missingLastModified⟩
      | some lm =>
        let fsU : FileSystem := { fs1 with tmp := some ⟨r.body.flatten, lm⟩ }
        let fsR : FileSystem := { fs1 with tmp := none, dest := some ⟨r.body.flatten, lm⟩ }
        ⟨fs1 :: (tmpWrites fs1 r.body ++ [fsU, fsR]), fsR, .ok .Success⟩
    else if r.status = 304 then ⟨[fs1], fs1, .ok .Skipped⟩
    else ⟨[fs1], fs1, .ok .Failed⟩

/-- The retry loop of download_file_with_retry: `tryCount` is the 1-based
attempt number, `fuel` the remaining iterations of
`for try_count in range(1, num_retries + 1)`.  A non-Failed status returns
immediately; an uncaught exception propagates; exhausting the loop returns
Failed.  `fetch` gives the server behaviour for each attempt. -/
def retryFrom (fetch : Nat → Option Nat → FetchOutcome) :
    Nat → Nat → FileSystem → Except RunError (FileSystem × DownloadStatus)
  | _, 0, fs => .ok (fs, .Failed)
  | tryCount, fuel + 1, fs =>
    let r := download_file (fetch tryCount) fs
    match r.result with
    | .error e => .error e
    | .ok s => if s = .Failed then retryFrom fetch (tryCount + 1) fuel r.finalFs
               else .ok (r.finalFs, s)

/-- download_file_with_retry with the given maximum attempt count. -/
def download_file_with_retry (fetch : Nat → Option Nat → FetchOutcome)
    (fs : FileSystem) (num_retries : Nat) : Except RunError (FileSystem × DownloadStatus) :=
  retryFrom fetch 1 num_retries fs

/-- The status component of a retry result. -/
def retryStatus (e : Except RunError (FileSystem × DownloadStatus)) :
    Except RunError DownloadStatus :=
  e.map Prod.snd

/-! ## SyncRunner (main) -/

/-- The counter loop of main over the per-file outcomes, in file-list order:
counts of downloaded, skipped and failed files.  An uncaught per-file
exception aborts the loop (main only catches KeyboardInterrupt), so a list
containing an error yields no final counters. -/
def countResults : List (Except RunError DownloadStatus) → Option (Nat × Nat × Nat)
  | [] => some (0, 0, 0)
  | .error _ :: _ => none
  | .ok s :: rest =>
    (countResults rest).map fun t =>
      match s with
      | .Success => (t.1 + 1, t.2.1, t.2.2)
      | .Skipped => (t.1, t.2.1 + 1, t.2.2)
      | .Failed => (t.1, t.2.1, t.2.2 + 1)

/-- The final `sys.exit(1 if failed_count > 0 else 0)` of main. -/
def exit_code (failed : Nat) : Nat :=
  if 0 < failed then 1 else 0

/-! ## Concrete fixtures used by witnesses and counterexamples -/

/-- An exclude matcher that excludes nothing. -/
def exclNone : Path → Bool := fun _ => false

/-- A remote tree whose listing for `/sub/` contains the decoded names `..`
and `a/b` (hrefs `..` and `a%2Fb`) next to an ordinary file, plus the
spec's own example of a malformed entry `../`. -/
def rawC2 : Path → List Path := fun p =>
  if p = ['/'] then [['s', 'u', 'b', '/']]
  else if p = ['/', 's', 'u', 'b', '/'] then
    [['.', '.'], ['a', '/', 'b'], ['.', '.', '/'], ['o', 'k']]
  else []

/-- A small remote tree. -/
def rawP1 : Path → List Path := fun p =>
  if p = ['/'] then [['s', 'u', 'b', '/'], ['a']]
  else if p = ['/', 's', 'u', 'b', '/'] then [['b'], ['c', '/']]
  else []

/-- The same remote tree with every listing reversed. -/
def rawP2 : Path → List Path := fun p =>
  if p = ['/'] then [['a'], ['s', 'u', 'b', '/']]
  else if p = ['/', 's', 'u', 'b', '/'] then [['c', '/'], ['b']]
  else []

/-- A response with a non-success, non-304 status. -/
def resp500 : Response := ⟨500, none, []⟩

/-- A 304 Not Modified response. -/
def resp304 : Response := ⟨304, none, []⟩

/-- A success response with the given body chunks and Last-Modified. -/
def resp200 (body : List (List Nat)) (lm : Nat) : Response := ⟨200, some lm, body⟩

/-- A success response lacking the Last-Modified header. -/
def resp200NoLM : Response := ⟨200, none, [[1]]⟩

/-- A destination with no parent directory and no files. -/
def fsEmpty : FileSystem := ⟨false, none, none⟩

/-- Per-attempt server behaviour: the first attempt fails with a 500, every
later attempt succeeds. -/
def fetchC3 : Nat → Option Nat → FetchOutcome := fun i _ =>
  if i = 1 then .response resp500 else .response (resp200 [[7, 8]] 5)

/-- Server behaviour failing every attempt with a 500. -/
def fetchAll500 : Nat → Option Nat → FetchOutcome := fun _ _ => .response resp500

/-- Server behaviour raising a transport-level error on every attempt. -/
def fetchTE : Nat → Option Nat → FetchOutcome := fun _ _ => .transportError

/-- Server behaviour answering 200 without a Last-Modified header. -/
def fetchNoLM : Nat → Option Nat → FetchOutcome := fun _ _ => .response resp200NoLM

/-- Server behaviour answering 304 to every request. -/
def fetch304 : Option Nat → FetchOutcome := fun _ => .response resp304

/-- Server behaviour answering 200 with a fixed file to every request. -/
def fetchOk : Option Nat → FetchOutcome := fun _ => .response (resp200 [[7], [8]] 5)

/-- An honest server for a fixed file with Last-Modified 5: answers 304 when
the precondition timestamp is at least 5, and the full body otherwise. -/
def serverC6 : Option Nat → FetchOutcome := fun ims =>
  match ims with
  | some t => if 5 ≤ t then .response resp304 else .response (resp200 [[7], [8]] 5)
  | none => .response (resp200 [[7], [8]] 5)

/-- The sorted file list of the walk of rawP1 and rawP2. -/
def fileListP : List Path := [['/', 'a'], ['/', 's', 'u', 'b', '/', 'b']]

/-- The destination holds the complete newly fetched file: the fetch
answered with a response carrying a Last-Modified timestamp, and the
destination is exactly the concatenated body chunks stamped with that
timestamp. -/
def completeNewFile (fetch : Option Nat → FetchOutcome) (fs0 : FileSystem)
    (d : Option LocalFile) : Prop :=
  ∃ r lm, fetch (imsOf fs0) = FetchOutcome.response r ∧ r.lastModified = some lm ∧
    d = some ⟨r.body.flatten, lm⟩

/-- The filesystem state after the atomic rename of a fresh fetchOk run. -/
def stC8 : FileSystem := ⟨true, some ⟨[7, 8], 5⟩, none⟩

/-- The wildcard loop succeeds exactly on strings splitting into a run of
non-separator characters followed by a remainder accepted by the
continuation. -/
theorem starLoop_iff (f : List Char → Bool) (xs : List Char) :
    starLoop f xs = true ↔
      ∃ s rest, xs = s ++ rest ∧ (∀ c ∈ s, c ≠ '/') ∧ f rest = true := by
  induction xs with
  | nil =>
    simp only [starLoop]
    constructor
    · intro h
      exact ⟨[], [], rfl, by simp, h⟩
    · rintro ⟨s, rest, hx, _, hf⟩
      obtain ⟨hs, hr⟩ := List.append_eq_nil.mp hx.symm
      subst hs; subst hr
      exact hf
  | cons c ys ih =>
    simp only [starLoop, Bool.or_eq_true, Bool.and_eq_true, bne_iff_ne, ne_eq, ih]
    constructor
    · rintro (h | ⟨hc, s, rest, hx, hs, hf⟩)
      · exact ⟨[], c :: ys, rfl, by simp, h⟩
      · exact ⟨c :: s, rest, by simp [hx], by simpa [hc] using hs, hf⟩
    · rintro ⟨s, rest, hx, hs, hf⟩
      rcases s with _ | ⟨d, s⟩
      · simp at hx
        subst hx
        exact Or.inl hf
      · simp at hx
        obtain ⟨hdc, hys⟩ := hx
        subst hdc
        refine Or.inr ⟨hs c (by simp), s, rest, hys, fun e he => hs e (by simp [he]), hf⟩

theorem starLoop_intro (f : List Char → Bool) (s rest : List Char)
    (hs : ∀ c ∈ s, c ≠ '/') (hf : f rest = true) : starLoop f (s ++ rest) = true :=
  (starLoop_iff f (s ++ rest)).mpr ⟨s, rest, rfl, hs, hf⟩

theorem globM_of_globExact : ∀ p s : List Char, globExact p s = true → GlobM p s := by
  intro p
  induction p with
  | nil =>
    intro s h
    simp only [globExact, List.isEmpty_iff] at h
    subst h
    exact GlobM.nil
  | cons q ps ih =>
    intro s h
    by_cases hq : q = '*'
    · subst hq
      simp only [globExact, beq_self_eq_true, eq_self_iff_true, if_true] at h
      obtain ⟨s1, rest, hx, hs, hf⟩ := (starLoop_iff _ s).mp h
      subst hx
      exact GlobM.star ps s1 rest hs (ih rest hf)
    · have hq' : (q == '*') = false := by simpa using hq
      simp only [globExact, hq', Bool.false_eq_true, if_false] at h
      rcases s with _ | ⟨c, s'⟩
      · simp at h
      · simp only [Bool.and_eq_true, beq_iff_eq] at h
        obtain ⟨hqc, h2⟩ := h
        subst hqc
        exact GlobM.lit q ps s' hq (ih s' h2)

theorem globExact_of_globM : ∀ {p s : List Char}, GlobM p s → globExact p s = true := by
  intro p s h
  induction h with
  | nil => rfl
  | lit p ps xs hp _ ih =>
    have hp' : (p == '*') = false := by simpa using hp
    simp [globExact, hp', ih]
  | star ps s xs hs _ ih =>
    simp only [globExact, beq_self_eq_true, eq_self_iff_true, if_true]
    exact starLoop_intro (globExact ps) s xs hs ih

theorem globM_iff_globExact (p s : List Char) : GlobM p s ↔ globExact p s = true :=
  ⟨globExact_of_globM, globM_of_globExact p s⟩

/-- A bare glob match implies a spec-side per-pattern match. -/
theorem specMatch_of_globExact : ∀ p xs : List Char,
    globExact p xs = true → specMatch p xs = true := by
  intro p
  induction p with
  | nil =>
    intro xs h
    simp only [globExact, List.isEmpty_iff] at h
    subst h
    rfl
  | cons q ps ih =>
    intro xs h
    by_cases hq : q = '*'
    · subst hq
      simp only [globExact, specMatch, beq_self_eq_true, eq_self_iff_true, if_true] at h ⊢
      obtain ⟨s, rest, hx, hs, hf⟩ := (starLoop_iff _ xs).mp h
      subst hx
      exact starLoop_intro (specMatch ps) s rest hs (ih rest hf)
    · have hq' : (q == '*') = false := by simpa using hq
      simp only [globExact, specMatch, hq', Bool.false_eq_true, if_false] at h ⊢
      rcases xs with _ | ⟨c, xs'⟩
      · simp at h
      · simp only [Bool.and_eq_true, beq_iff_eq] at h ⊢
        exact ⟨h.1, ih xs' h.2⟩

/-- A bare glob match on a prefix ending at a separator implies a spec-side
per-pattern match on the whole string (the claim's directory-suffix case). -/
theorem specMatch_append : ∀ (p s t : List Char),
    globExact p s = true → specMatch p (s ++ '/' :: t) = true := by
  intro p
  induction p with
  | nil =>
    intro s t h
    simp only [globExact, List.isEmpty_iff] at h
    subst h
    simp [specMatch]
  | cons q ps ih =>
    intro s t h
    by_cases hq : q = '*'
    · subst hq
      simp only [globExact, specMatch, beq_self_eq_true, eq_self_iff_true, if_true] at h ⊢
      obtain ⟨s1, rest, hx, hs, hf⟩ := (starLoop_iff _ s).mp h
      subst hx
      have : s1 ++ rest ++ '/' :: t = s1 ++ (rest ++ '/' :: t) := by simp
      rw [this]
      exact starLoop_intro (specMatch ps) s1 (rest ++ '/' :: t) hs (ih rest t hf)
    · have hq' : (q == '*') = false := by simpa using hq
      simp only [globExact, specMatch, hq', Bool.false_eq_true, if_false] at h ⊢
      rcases s with _ | ⟨c, s'⟩
      · simp at h
      · simp only [Bool.and_eq_true, beq_iff_eq, List.cons_append] at h ⊢
        exact ⟨h.1, ih s' t h.2⟩

/-- Soundness: a spec-side per-pattern match is a bare glob match of the
whole string or of a prefix ending at a separator. -/
theorem specMatch_sound : ∀ p xs : List Char,
    specMatch p xs = true →
      globExact p xs = true ∨ ∃ s t, xs = s ++ '/' :: t ∧ globExact p s = true := by
  intro p
  induction p with
  | nil =>
    intro xs h
    rcases xs with _ | ⟨c, ys⟩
    · exact Or.inl rfl
    · simp only [specMatch, beq_iff_eq] at h
      subst h
      exact Or.inr ⟨[], ys, rfl, rfl⟩
  | cons q ps ih =>
    intro xs h
    by_cases hq : q = '*'
    · subst hq
      simp only [specMatch, globExact, beq_self_eq_true, eq_self_iff_true, if_true] at h ⊢
      obtain ⟨s1, rest, hx, hs, hm⟩ := (starLoop_iff _ xs).mp h
      subst hx
      rcases ih rest hm with h3 | ⟨a, t, hat, ha⟩
      · exact Or.inl (starLoop_intro (globExact ps) s1 rest hs h3)
      · subst hat
        refine Or.inr ⟨s1 ++ a, t, by simp, ?_⟩
        exact starLoop_intro (globExact ps) s1 a hs ha
    · have hq' : (q == '*') = false := by simpa using hq
      simp only [specMatch, globExact, hq', Bool.false_eq_true, if_false] at h ⊢
      rcases xs with _ | ⟨c, ys⟩
      · simp at h
      · simp only [Bool.and_eq_true, beq_iff_eq] at h
        obtain ⟨hqc, h2⟩ := h
        subst hqc
        rcases ih ys h2 with h3 | ⟨s, t, hst, hs⟩
        · exact Or.inl (by simp [h3])
        · subst hst
          exact Or.inr ⟨q :: s, t, by simp, by simp [hs]⟩

/-- The spec-side per-pattern semantics, characterized. -/
theorem specMatch_iff (p xs : List Char) :
    specMatch p xs = true ↔
      (globExact p xs = true ∨ ∃ s t, xs = s ++ '/' :: t ∧ globExact p s = true) := by
  constructor
  · exact specMatch_sound p xs
  · rintro (h | ⟨s, t, hst, hs⟩)
    · exact specMatch_of_globExact p xs h
    · exact hst ▸ specMatch_append p s t hs

/-- The `.*$` step characterized: the remainder contains no newline except
possibly as its final character. -/
theorem dotStarEnd_iff (t : List Char) :
    dotStarEnd t = true ↔
      ((∀ c ∈ t, c ≠ '\n') ∨ ∃ u, t = u ++ ['\n'] ∧ ∀ c ∈ u, c ≠ '\n') := by
  induction t with
  | nil =>
    simp [dotStarEnd]
  | cons c w ih =>
    by_cases hc : c = '\n'
    · subst hc
      have hstep : dotStarEnd ('\n' :: w) = w.isEmpty := if_pos rfl
      rw [hstep]
      constructor
      · intro h
        right
        refine ⟨[], ?_, by simp⟩
        simp [List.isEmpty_iff.mp h]
      · rintro (h | ⟨u, hu, hnl⟩)
        · exact absurd (h '\n' (by simp)) (by simp)
        · rcases u with _ | ⟨d, u⟩
          · simp at hu
            simp [hu]
          · simp at hu
            obtain ⟨hd, -⟩ := hu
            exact absurd hd.symm (hnl d (by simp))
    · have hstep : dotStarEnd (c :: w) = dotStarEnd w := if_neg hc
      rw [hstep, ih]
      constructor
      · rintro (h | ⟨u, hu, hnl⟩)
        · left
          intro d hd
          rcases List.mem_cons.mp hd with rfl | hd
          · exact hc
          · exact h d hd
        · right
          refine ⟨c :: u, by simp [hu], ?_⟩
          intro d hd
          rcases List.mem_cons.mp hd with rfl | hd
          · exact hc
          · exact hnl d hd
      · rintro (h | ⟨u, hu, hnl⟩)
        · exact Or.inl fun d hd => h d (List.mem_cons_of_mem _ hd)
        · rcases u with _ | ⟨d, u⟩
          · simp at hu
            exact absurd hu.1 hc
          · simp at hu
            obtain ⟨hd, hw⟩ := hu
            exact Or.inr ⟨u, hw, fun e he => hnl e (List.mem_cons_of_mem _ he)⟩

/-- A bare glob match implies a match of the compiled per-pattern regex. -/
theorem matchPat_of_globExact : ∀ p xs : List Char,
    globExact p xs = true → matchPat p xs = true := by
  intro p
  induction p with
  | nil =>
    intro xs h
    simp only [globExact, List.isEmpty_iff] at h
    subst h
    rfl
  | cons q ps ih =>
    intro xs h
    by_cases hq : q = '*'
    · subst hq
      simp only [globExact, matchPat, beq_self_eq_true, eq_self_iff_true, if_true] at h ⊢
      obtain ⟨s, rest, hx, hs, hf⟩ := (starLoop_iff _ xs).mp h
      subst hx
      exact starLoop_intro (matchPat ps) s rest hs (ih rest hf)
    · have hq' : (q == '*') = false := by simpa using hq
      simp only [globExact, matchPat, hq', Bool.false_eq_true, if_false] at h ⊢
      rcases xs with _ | ⟨c, xs'⟩
      · simp at h
      · simp only [Bool.and_eq_true, beq_iff_eq] at h ⊢
        exact ⟨h.1, ih xs' h.2⟩

/-- A bare glob match extends to a match of the compiled per-pattern regex
on the string with one trailing newline appended (`$` also matches before a
final newline). -/
theorem matchPat_newline : ∀ p y : List Char,
    globExact p y = true → matchPat p (y ++ ['\n']) = true := by
  intro p
  induction p with
  | nil =>
    intro y h
    simp only [globExact, List.isEmpty_iff] at h
    subst h
    decide
  | cons q ps ih =>
    intro y h
    by_cases hq : q = '*'
    · subst hq
      simp only [globExact, matchPat, beq_self_eq_true, eq_self_iff_true, if_true] at h ⊢
      obtain ⟨s, rest, hx, hs, hf⟩ := (starLoop_iff _ y).mp h
      subst hx
      rw [List.append_assoc]
      exact starLoop_intro (matchPat ps) s (rest ++ ['\n']) hs (ih rest hf)
    · have hq' : (q == '*') = false := by simpa using hq
      simp only [globExact, matchPat, hq', Bool.false_eq_true, if_false] at h ⊢
      rcases y with _ | ⟨c, y'⟩
      · simp at h
      · simp only [Bool.and_eq_true, beq_iff_eq, List.cons_append] at h ⊢
        exact ⟨h.1, ih y' h.2⟩

/-- A bare glob match on a prefix ending at a separator, followed by a
`.*$`-acceptable suffix, is a match of the compiled per-pattern regex (the
taken `(?:/.*)?` branch of the tail). -/
theorem matchPat_appendDir : ∀ (p s t : List Char),
    globExact p s = true → dotStarEnd t = true → matchPat p (s ++ '/' :: t) = true := by
  intro p
  induction p with
  | nil =>
    intro s t h ht
    simp only [globExact, List.isEmpty_iff] at h
    subst h
    simpa [matchPat, matchEnd] using ht
  | cons q ps ih =>
    intro s t h ht
    by_cases hq : q = '*'
    · subst hq
      simp only [globExact, matchPat, beq_self_eq_true, eq_self_iff_true, if_true] at h ⊢
      obtain ⟨s1, rest, hx, hs, hf⟩ := (starLoop_iff _ s).mp h
      subst hx
      rw [List.append_assoc]
      exact starLoop_intro (matchPat ps) s1 (rest ++ '/' :: t) hs (ih rest t hf ht)
    · have hq' : (q == '*') = false := by simpa using hq
      simp only [globExact, matchPat, hq', Bool.false_eq_true, if_false] at h ⊢
      rcases s with _ | ⟨c, s'⟩
      · simp at h
      · simp only [Bool.and_eq_true, beq_iff_eq, List.cons_append] at h ⊢
        exact ⟨h.1, ih s' t h.2 ht⟩

/-- Soundness of the compiled per-pattern regex: a match is a bare glob
match of the whole string, or of the string less one trailing newline, or of
a prefix ending at a separator followed by a `.*$`-acceptable suffix. -/
theorem matchPat_sound : ∀ p xs : List Char,
    matchPat p xs = true →
      globExact p xs = true ∨
        (∃ y, xs = y ++ ['\n'] ∧ globExact p y = true) ∨
        ∃ s t, xs = s ++ '/' :: t ∧ globExact p s = true ∧ dotStarEnd t = true := by
  intro p
  induction p with
  | nil =>
    intro xs h
    rcases xs with _ | ⟨c, w⟩
    · exact Or.inl rfl
    · by_cases hc : c = '/'
      · subst hc
        have hw : dotStarEnd w = true := by simpa [matchPat, matchEnd] using h
        exact Or.inr (Or.inr ⟨[], w, rfl, rfl, hw⟩)
      · have h2 : c = '\n' ∧ w = [] := by
          simpa [matchPat, matchEnd, hc, List.isEmpty_iff] using h
        obtain ⟨rfl, rfl⟩ := h2
        exact Or.inr (Or.inl ⟨[], rfl, rfl⟩)
  | cons q ps ih =>
    intro xs h
    by_cases hq : q = '*'
    · subst hq
      simp only [matchPat, globExact, beq_self_eq_true, eq_self_iff_true, if_true] at h ⊢
      obtain ⟨s1, rest, hx, hs, hm⟩ := (starLoop_iff _ xs).mp h
      subst hx
      rcases ih rest hm with h3 | ⟨y, hy, hgy⟩ | ⟨s, t, hst, hgs, hdt⟩
      · exact Or.inl (starLoop_intro (globExact ps) s1 rest hs h3)
      · subst hy
        refine Or.inr (Or.inl ⟨s1 ++ y, by simp, ?_⟩)
        exact starLoop_intro (globExact ps) s1 y hs hgy
      · subst hst
        refine Or.inr (Or.inr ⟨s1 ++ s, t, by simp, ?_, hdt⟩)
        exact starLoop_intro (globExact ps) s1 s hs hgs
    · have hq' : (q == '*') = false := by simpa using hq
      simp only [matchPat, globExact, hq', Bool.false_eq_true, if_false] at h ⊢
      rcases xs with _ | ⟨c, ys⟩
      · simp at h
      · simp only [Bool.and_eq_true, beq_iff_eq] at h
        obtain ⟨hqc, h2⟩ := h
        subst hqc
        rcases ih ys h2 with h3 | ⟨y, hy, hgy⟩ | ⟨s, t, hst, hgs, hdt⟩
        · exact Or.inl (by simp [h3])
        · subst hy
          exact Or.inr (Or.inl ⟨q :: y, by simp, by simp [hgy]⟩)
        · subst hst
          exact Or.inr (Or.inr ⟨q :: s, t, by simp, by simp [hgs], hdt⟩)

/-- On an absolute path the compiled matcher is the alternation of the
per-pattern regexes. -/
theorem excludes_eq_any (patterns : List (List Char)) (xs : List Char) :
    excludes patterns ('/' :: xs) = patterns.any fun p => matchPat p xs := by
  unfold excludes
  rcases patterns with _ | ⟨p, ps⟩
  · simp
  · simp

/-- The claimed spec-side exclusion of an absolute path, in executable
form: some pattern spec-matches the remainder after the root. -/
theorem specExcludes_iff_any (patterns : List (List Char)) (xs : List Char) :
    specExcludes patterns ('/' :: xs) ↔
      (patterns.any fun p => specMatch p xs) = true := by
  simp only [List.any_eq_true]
  unfold specExcludes
  constructor
  · rintro ⟨p, hp, y, hg, hxy | ⟨t, hxy⟩⟩
    · obtain rfl : xs = y := by injection hxy
      exact ⟨p, hp, specMatch_of_globExact p xs (globExact_of_globM hg)⟩
    · obtain rfl : xs = y ++ '/' :: t := by injection hxy
      exact ⟨p, hp, specMatch_append p y t (globExact_of_globM hg)⟩
  · rintro ⟨p, hp, hm⟩
    rcases specMatch_sound p xs hm with h | ⟨s, t, hst, hs⟩
    · exact ⟨p, hp, xs, globM_of_globExact p xs h, Or.inl rfl⟩
    · exact ⟨p, hp, s, globM_of_globExact p s hs, Or.inr ⟨t, by rw [hst]⟩⟩

/-- Counterexample to claim C1 as stated: with pattern `foo`, the compiled
matcher excludes the absolute path `/foo` followed by a newline (`$` matches
before the trailing newline) although the claimed semantics do not cover it,
and it does not exclude `/foo/a`, newline, `b` (`.` does not match a
newline) although that path is the pattern's path followed by `'/'` and a
suffix, so the claimed iff fails in both directions. -/
theorem exclude_matcher_newline_counterexample :
    excludes [['f', 'o', 'o']] ['/', 'f', 'o', 'o', '\n'] = true ∧
    ¬ specExcludes [['f', 'o', 'o']] ['/', 'f', 'o', 'o', '\n'] ∧
    excludes [['f', 'o', 'o']] ['/', 'f', 'o', 'o', '/', 'a', '\n', 'b'] = false ∧
    specExcludes [['f', 'o', 'o']] ['/', 'f', 'o', 'o', '/', 'a', '\n', 'b'] := by
  refine ⟨by decide, ?_, by decide, ?_⟩
  · intro h
    have h2 := (specExcludes_iff_any [['f', 'o', 'o']] ['f', 'o', 'o', '\n']).mp h
    exact absurd h2 (by decide)
  · exact (specExcludes_iff_any [['f', 'o', 'o']]
      ['f', 'o', 'o', '/', 'a', '\n', 'b']).mpr (by decide)

/-- Claim C1 as amended: the matcher built by compile_exclude_patterns
excludes an absolute path iff some pattern of the list, anchored at the root
with `'*'` matching runs of non-separator characters and all other
characters literal, matches the path exactly, or matches it up to one
trailing newline, or the path extends the pattern's path by `'/'` and a
suffix containing no newline except possibly as its final character; the
empty pattern list excludes no absolute path. -/
theorem exclude_matcher_correct_nl (patterns : List (List Char)) (xs : Path) :
    (excludes patterns ('/' :: xs) = true ↔ specExcludesNl patterns ('/' :: xs)) ∧
      excludes [] ('/' :: xs) = false := by
  constructor
  · rw [excludes_eq_any]
    simp only [List.any_eq_true]
    unfold specExcludesNl
    constructor
    · rintro ⟨p, hp, hm⟩
      rcases matchPat_sound p xs hm with h | ⟨y, hy, hgy⟩ | ⟨s, t, hst, hgs, hdt⟩
      · exact ⟨p, hp, xs, globM_of_globExact p xs h, Or.inl rfl⟩
      · exact ⟨p, hp, y, globM_of_globExact p y hgy, Or.inr (Or.inl (by rw [hy]))⟩
      · exact ⟨p, hp, s, globM_of_globExact p s hgs,
          Or.inr (Or.inr ⟨t, by rw [hst], (dotStarEnd_iff t).mp hdt⟩)⟩
    · rintro ⟨p, hp, y, hg, hxy | hxy | ⟨t, hxy, hnl⟩⟩
      · obtain rfl : xs = y := by injection hxy
        exact ⟨p, hp, matchPat_of_globExact p xs (globExact_of_globM hg)⟩
      · obtain rfl : xs = y ++ ['\n'] := by injection hxy
        exact ⟨p, hp, matchPat_newline p y (globExact_of_globM hg)⟩
      · obtain rfl : xs = y ++ '/' :: t := by injection hxy
        exact ⟨p, hp, matchPat_appendDir p y t (globExact_of_globM hg)
          ((dotStarEnd_iff t).mpr hnl)⟩
  · simp [excludes]

/-- Witness for the amended claim C1 at the spec's worked example. -/
theorem exclude_matcher_correct_nl_witness :
    (excludes [['f', 'o', 'o', '/', '*']]
        ('/' :: ['f', 'o', 'o', '/', 'b', 'a', 'r']) = true ↔
      specExcludesNl [['f', 'o', 'o', '/', '*']]
        ('/' :: ['f', 'o', 'o', '/', 'b', 'a', 'r'])) ∧
    excludes [] ('/' :: ['f', 'o', 'o', '/', 'b', 'a', 'r']) = false :=
  exclude_matcher_correct_nl [['f', 'o', 'o', '/', '*']]
    ['f', 'o', 'o', '/', 'b', 'a', 'r']

/- Sanity checks matching the spec's worked example: pattern `foo/*` excludes
`/foo/bar` and `/foo/bar/baz.txt` but not `/foo` or `/foobar`. -/
example : excludes [['f', 'o', 'o', '/', '*']]
    ['/', 'f', 'o', 'o', '/', 'b', 'a', 'r'] = true := by decide
example : excludes [['f', 'o', 'o', '/', '*']]
    ['/', 'f', 'o', 'o', '/', 'b', 'a', 'r', '/', 'b', 'z'] = true := by decide
example : excludes [['f', 'o', 'o', '/', '*']] ['/', 'f', 'o', 'o'] = false := by decide
example : excludes [['f', 'o', 'o', '/', '*']]
    ['/', 'f', 'o', 'o', 'b', 'a', 'r'] = false := by decide
example : excludes [] ['/', 'f'] = false := by decide


/-- Claim C2 at the failing input: valid_path_re accepts the decoded names
`..` and `a/b` (while rejecting `../`), and the walk of a tree whose `/sub/`
listing serves them appends `/sub/..` and `/sub/a/b` to the file list. -/
theorem invalid_names_reach_file_list :
    valid_path ['.', '.'] = true ∧ valid_path ['a', '/', 'b'] = true ∧
    valid_path ['.', '.', '/'] = false ∧
    get_file_list rawC2 exclNone ['/'] 3 = some
      [['/', 's', 'u', 'b', '/', '.', '.'],
       ['/', 's', 'u', 'b', '/', 'a', '/', 'b'],
       ['/', 's', 'u', 'b', '/', 'o', 'k']] := by decide

/-! ### Walk characterization lemmas for claim C5 -/

theorem procEntry_dir_old (excl : Path → Bool) (dir : Path) (st : WalkSt) (name : Path)
    (he : endsSlash (dir ++ name) = true)
    (hm : dir ++ name ∈ st.seen ∨ excl (dir ++ name) = true) :
    procEntry excl dir st name = st := by
  simp [procEntry, he, hm]

theorem procEntry_dir_new (excl : Path → Bool) (dir : Path) (st : WalkSt) (name : Path)
    (he : endsSlash (dir ++ name) = true)
    (hm : ¬(dir ++ name ∈ st.seen ∨ excl (dir ++ name) = true)) :
    procEntry excl dir st name =
      ⟨st.queue ++ [dir ++ name], (dir ++ name) :: st.seen, st.files⟩ := by
  simp only [procEntry, he, if_true]
  rw [if_neg hm]

theorem procEntry_file_excl (excl : Path → Bool) (dir : Path) (st : WalkSt) (name : Path)
    (he : endsSlash (dir ++ name) = false) (hx : excl (dir ++ name) = true) :
    procEntry excl dir st name = st := by
  simp [procEntry, he, hx]

theorem procEntry_file_keep (excl : Path → Bool) (dir : Path) (st : WalkSt) (name : Path)
    (he : endsSlash (dir ++ name) = false) (hx : excl (dir ++ name) = false) :
    procEntry excl dir st name = ⟨st.queue, st.seen, st.files ++ [dir ++ name]⟩ := by
  simp [procEntry, he, hx]

/-- Characterization of folding one directory's entries over the walker
state: the queue gains the newly-discovered sub-directories `nd` in
encounter order, the seen list gains the same paths most-recent-first, the
file list gains the directory's non-excluded file children in listing
order; every path of `nd` is a non-excluded directory child of an entry;
every non-excluded directory child of an entry ends up seen; nodup of the
seen list is preserved. -/
theorem foldProc_spec (excl : Path → Bool) (dir : Path) :
    ∀ (es : List Path) (st : WalkSt),
      ∃ nd : List Path,
        (es.foldl (procEntry excl dir) st).queue = st.queue ++ nd ∧
        (es.foldl (procEntry excl dir) st).seen = nd.reverse ++ st.seen ∧
        (es.foldl (procEntry excl dir) st).files =
          st.files ++
            ((es.filter fun n => !endsSlash (dir ++ n) && !excl (dir ++ n)).map
              fun n => dir ++ n) ∧
        (∀ p ∈ nd, endsSlash p = true ∧ excl p = false ∧ ∃ n ∈ es, p = dir ++ n) ∧
        (∀ n ∈ es, endsSlash (dir ++ n) = true → excl (dir ++ n) = false →
          (dir ++ n) ∈ (es.foldl (procEntry excl dir) st).seen) ∧
        (st.seen.Nodup → (es.foldl (procEntry excl dir) st).seen.Nodup) := by
  intro es
  induction es with
  | nil =>
    intro st
    exact ⟨[], by simp, by simp, by simp, by simp, by simp, fun h => h⟩
  | cons e es ih =>
    intro st
    rw [List.foldl_cons]
    rcases he : endsSlash (dir ++ e) with _ | _
    · -- file entry
      rcases hx : excl (dir ++ e) with _ | _
      · -- kept file
        rw [procEntry_file_keep excl dir st e he hx]
        obtain ⟨nd, hq, hs, hf, hnd, hcov, hdup⟩ :=
          ih ⟨st.queue, st.seen, st.files ++ [dir ++ e]⟩
        refine ⟨nd, hq, hs, ?_, ?_, ?_, hdup⟩
        · rw [hf]
          simp [he, hx]
        · intro p hp
          obtain ⟨h1, h2, n, hn, h3⟩ := hnd p hp
          exact ⟨h1, h2, n, List.mem_cons_of_mem e hn, h3⟩
        · intro n hn hend hexcl
          rcases List.mem_cons.mp hn with rfl | hn
          · rw [he] at hend
            exact absurd hend (by simp)
          · exact hcov n hn hend hexcl
      · -- excluded file
        rw [procEntry_file_excl excl dir st e he hx]
        obtain ⟨nd, hq, hs, hf, hnd, hcov, hdup⟩ := ih st
        refine ⟨nd, hq, hs, ?_, ?_, ?_, hdup⟩
        · rw [hf]
          simp [he, hx]
        · intro p hp
          obtain ⟨h1, h2, n, hn, h3⟩ := hnd p hp
          exact ⟨h1, h2, n, List.mem_cons_of_mem e hn, h3⟩
        · intro n hn hend hexcl
          rcases List.mem_cons.mp hn with rfl | hn
          · rw [he] at hend
            exact absurd hend (by simp)
          · exact hcov n hn hend hexcl
    · -- directory entry
      by_cases hm : dir ++ e ∈ st.seen ∨ excl (dir ++ e) = true
      · -- already seen or excluded
        rw [procEntry_dir_old excl dir st e he hm]
        obtain ⟨nd, hq, hs, hf, hnd, hcov, hdup⟩ := ih st
        refine ⟨nd, hq, hs, ?_, ?_, ?_, hdup⟩
        · rw [hf]
          simp [he]
        · intro p hp
          obtain ⟨h1, h2, n, hn, h3⟩ := hnd p hp
          exact ⟨h1, h2, n, List.mem_cons_of_mem e hn, h3⟩
        · intro n hn hend hexcl
          rcases List.mem_cons.mp hn with rfl | hn
          · have hmem : dir ++ n ∈ st.seen := by
              rcases hm with h | h
              · exact h
              · rw [hexcl] at h
                exact absurd h (by simp)
            rw [hs]
            exact List.mem_append_right _ hmem
          · exact hcov n hn hend hexcl
      · -- newly discovered directory
        rw [procEntry_dir_new excl dir st e he hm]
        obtain ⟨nd, hq, hs, hf, hnd, hcov, hdup⟩ :=
          ih ⟨st.queue ++ [dir ++ e], (dir ++ e) :: st.seen, st.files⟩
        push_neg at hm
        obtain ⟨hnotseen, hnotexcl⟩ := hm
        refine ⟨(dir ++ e) :: nd, ?_, ?_, ?_, ?_, ?_, ?_⟩
        · rw [hq]
          simp
        · rw [hs]
          simp
        · rw [hf]
          simp [he]
        · intro p hp
          rcases List.mem_cons.mp hp with rfl | hp
          · exact ⟨he, by simpa using hnotexcl, e, List.mem_cons_self e es, rfl⟩
          · obtain ⟨h1, h2, n, hn, h3⟩ := hnd p hp
            exact ⟨h1, h2, n, List.mem_cons_of_mem e hn, h3⟩
        · intro n hn hend hexcl
          rcases List.mem_cons.mp hn with rfl | hn
          · rw [hs]
            exact List.mem_append_right _ (List.mem_cons_self _ _)
          · exact hcov n hn hend hexcl
        · intro hnodup
          exact hdup (List.nodup_cons.mpr ⟨hnotseen, hnodup⟩)

theorem totalFiles_nil (listing : Path → List Path) (excl : Path → Bool) :
    totalFiles listing excl [] = 0 := rfl

theorem totalFiles_cons (listing : Path → List Path) (excl : Path → Bool)
    (d : Path) (l : List Path) :
    totalFiles listing excl (d :: l) =
      (filesOf listing excl d : Multiset Path) + totalFiles listing excl l := by
  simp [totalFiles]

theorem totalFiles_append (listing : Path → List Path) (excl : Path → Bool)
    (l1 l2 : List Path) :
    totalFiles listing excl (l1 ++ l2) =
      totalFiles listing excl l1 + totalFiles listing excl l2 := by
  simp [totalFiles]

theorem totalFiles_reverse (listing : Path → List Path) (excl : Path → Bool)
    (l : List Path) :
    totalFiles listing excl l.reverse = totalFiles listing excl l := by
  unfold totalFiles
  rw [List.map_reverse, List.sum_reverse]

/-- A completed walk returns, beyond the incoming state: the incoming files
plus one contribution per directory of the incoming queue and per
newly-seen directory; the final seen list extends the incoming one by the
newly-seen directories; nodup of the seen list is preserved. -/
theorem walkLoop_chara (listing : Path → List Path) (excl : Path → Bool) :
    ∀ (fuel : Nat) (st : WalkSt) (fl sn : List Path),
      walkLoop listing excl fuel st = some (fl, sn) →
      ∃ nw : List Path,
        sn = nw ++ st.seen ∧
        (fl : Multiset Path) = (st.files : Multiset Path)
          + totalFiles listing excl st.queue + totalFiles listing excl nw ∧
        (st.seen.Nodup → sn.Nodup) := by
  intro fuel
  induction fuel with
  | zero =>
    intro st fl sn h
    rcases hq : st.queue with _ | ⟨dir, rest⟩
    · rw [walkLoop, hq] at h
      obtain ⟨h1, h2⟩ : st.files = fl ∧ st.seen = sn := by
        simpa using h
      subst h1
      subst h2
      exact ⟨[], by simp, by simp [hq, totalFiles_nil], fun h => h⟩
    · rw [walkLoop, hq] at h
      exact absurd h (by simp)
  | succ fuel ih =>
    intro st fl sn h
    rcases hq : st.queue with _ | ⟨dir, rest⟩
    · rw [walkLoop, hq] at h
      obtain ⟨h1, h2⟩ : st.files = fl ∧ st.seen = sn := by
        simpa using h
      subst h1
      subst h2
      exact ⟨[], by simp, by simp [hq, totalFiles_nil], fun h => h⟩
    · rw [walkLoop, hq] at h
      obtain ⟨nd, hfq, hfs, hff, hfnd, hfcov, hfdup⟩ :=
        foldProc_spec excl dir (listing dir) ⟨rest, st.seen, st.files⟩
      obtain ⟨nw, h1, h2, h3⟩ := ih (procDir listing excl dir ⟨rest, st.seen, st.files⟩) fl sn h
      unfold procDir at *
      refine ⟨nw ++ nd.reverse, ?_, ?_, ?_⟩
      · rw [h1, hfs]
        simp
      · rw [h2, hff, hfq]
        have hfo : ((listing dir).filter fun n =>
              !endsSlash (dir ++ n) && !excl (dir ++ n)).map (fun n => dir ++ n) =
            filesOf listing excl dir := rfl
        rw [hfo]
        simp only [totalFiles_cons, totalFiles_append, totalFiles_reverse,
          ← Multiset.coe_add]
        abel
      · intro hnodup
        exact h3 (hfdup hnodup)

/-- Coverage: once the walk completes, every non-excluded directory child of
a queued directory, or of a directory that first enters the seen list during
the walk, is in the final seen list. -/
theorem walkLoop_cov (listing : Path → List Path) (excl : Path → Bool) :
    ∀ (fuel : Nat) (st : WalkSt) (fl sn : List Path),
      walkLoop listing excl fuel st = some (fl, sn) →
      ∀ d, (d ∈ st.queue ∨ (d ∈ sn ∧ d ∉ st.seen)) →
      ∀ n ∈ listing d, endsSlash (d ++ n) = true → excl (d ++ n) = false →
        (d ++ n) ∈ sn := by
  intro fuel
  induction fuel with
  | zero =>
    intro st fl sn h d hd n hn hend hexcl
    rcases hq : st.queue with _ | ⟨dir, rest⟩
    · rw [walkLoop, hq] at h
      obtain ⟨h1, h2⟩ : st.files = fl ∧ st.seen = sn := by
        simpa using h
      subst h2
      rcases hd with hd | ⟨hd1, hd2⟩
      · rw [hq] at hd
        exact absurd hd (by simp)
      · exact absurd hd1 hd2
    · rw [walkLoop, hq] at h
      exact absurd h (by simp)
  | succ fuel ih =>
    intro st fl sn h d hd n hn hend hexcl
    rcases hq : st.queue with _ | ⟨dir, rest⟩
    · rw [walkLoop, hq] at h
      obtain ⟨h1, h2⟩ : st.files = fl ∧ st.seen = sn := by
        simpa using h
      subst h2
      rcases hd with hd | ⟨hd1, hd2⟩
      · rw [hq] at hd
        exact absurd hd (by simp)
      · exact absurd hd1 hd2
    · rw [walkLoop, hq] at h
      obtain ⟨nd, hfq, hfs, hff, hfnd, hfcov, hfdup⟩ :=
        foldProc_spec excl dir (listing dir) ⟨rest, st.seen, st.files⟩
      obtain ⟨nw, h1, _, _⟩ :=
        walkLoop_chara listing excl fuel
          (procDir listing excl dir ⟨rest, st.seen, st.files⟩) fl sn h
      have hsub : ∀ x, x ∈ (procDir listing excl dir ⟨rest, st.seen, st.files⟩).seen →
          x ∈ sn := by
        intro x hx
        rw [h1]
        exact List.mem_append_right _ hx
      rw [hq] at hd
      rcases hd with hd | ⟨hd1, hd2⟩
      · rcases List.mem_cons.mp hd with rfl | hd
        · exact hsub _ (hfcov n hn hend hexcl)
        · refine ih _ fl sn h d (Or.inl ?_) n hn hend hexcl
          show d ∈ (procDir listing excl dir ⟨rest, st.seen, st.files⟩).queue
          unfold procDir
          rw [hfq]
          exact List.mem_append_left _ hd
      · by_cases hd3 : d ∈ (procDir listing excl dir ⟨rest, st.seen, st.files⟩).seen
        · have hdnd : d ∈ nd := by
            unfold procDir at hd3
            rw [hfs] at hd3
            rcases List.mem_append.mp hd3 with h4 | h4
            · exact List.mem_reverse.mp h4
            · exact absurd h4 hd2
          refine ih _ fl sn h d (Or.inl ?_) n hn hend hexcl
          show d ∈ (procDir listing excl dir ⟨rest, st.seen, st.files⟩).queue
          unfold procDir
          rw [hfq]
          exact List.mem_append_right _ hdnd
        · exact ih _ fl sn h d (Or.inr ⟨hd1, hd3⟩) n hn hend hexcl

/-- Soundness: every directory in the final seen list of a completed walk is
reachable through non-excluded directory children, given the incoming queue
and seen list are. -/
theorem walkLoop_sound (listing : Path → List Path) (excl : Path → Bool) (root : Path) :
    ∀ (fuel : Nat) (st : WalkSt) (fl sn : List Path),
      walkLoop listing excl fuel st = some (fl, sn) →
      (∀ p ∈ st.queue, p = root ∨ SeenDir listing excl root p) →
      (∀ p ∈ st.seen, SeenDir listing excl root p) →
      ∀ p ∈ sn, SeenDir listing excl root p := by
  intro fuel
  induction fuel with
  | zero =>
    intro st fl sn h hque hsee p hp
    rcases hq : st.queue with _ | ⟨dir, rest⟩
    · rw [walkLoop, hq] at h
      obtain ⟨h1, h2⟩ : st.files = fl ∧ st.seen = sn := by
        simpa using h
      subst h2
      exact hsee p hp
    · rw [walkLoop, hq] at h
      exact absurd h (by simp)
  | succ fuel ih =>
    intro st fl sn h hque hsee p hp
    rcases hq : st.queue with _ | ⟨dir, rest⟩
    · rw [walkLoop, hq] at h
      obtain ⟨h1, h2⟩ : st.files = fl ∧ st.seen = sn := by
        simpa using h
      subst h2
      exact hsee p hp
    · rw [walkLoop, hq] at h
      obtain ⟨nd, hfq, hfs, hff, hfnd, hfcov, hfdup⟩ :=
        foldProc_spec excl dir (listing dir) ⟨rest, st.seen, st.files⟩
      have hdirSeen : ∀ q ∈ nd, SeenDir listing excl root q := by
        intro q hqnd
        obtain ⟨hq1, hq2, m, hm, hq3⟩ := hfnd q hqnd
        have hdir : dir = root ∨ SeenDir listing excl root dir :=
          hque dir (by rw [hq]; exact List.mem_cons_self _ _)
        subst hq3
        rcases hdir with rfl | hdir
        · exact SeenDir.fromRoot m hm hq1 hq2
        · exact SeenDir.step dir m hdir hm hq1 hq2
      refine ih (procDir listing excl dir ⟨rest, st.seen, st.files⟩) fl sn h ?_ ?_ p hp
      · intro q hqmem
        unfold procDir at hqmem
        rw [hfq] at hqmem
        rcases List.mem_append.mp hqmem with h4 | h4
        · exact hque q (by rw [hq]; exact List.mem_cons_of_mem _ h4)
        · exact Or.inr (hdirSeen q h4)
      · intro q hqmem
        unfold procDir at hqmem
        rw [hfs] at hqmem
        rcases List.mem_append.mp hqmem with h4 | h4
        · exact hdirSeen q (List.mem_reverse.mp h4)
        · exact hsee q h4

/-- Completeness: every directory reachable through non-excluded directory
children appears in the final seen list of a completed walk from the
root. -/
theorem seenDir_mem (listing : Path → List Path) (excl : Path → Bool) (root : Path)
    (fuel : Nat) (fl sn : List Path)
    (h : walkLoop listing excl fuel ⟨[root], [], []⟩ = some (fl, sn)) :
    ∀ p, SeenDir listing excl root p → p ∈ sn := by
  intro p hp
  induction hp with
  | fromRoot n hn hend hexcl =>
    exact walkLoop_cov listing excl fuel ⟨[root], [], []⟩ fl sn h root
      (Or.inl (List.mem_cons_self _ _)) n hn hend hexcl
  | step d n _ hn hend hexcl ihd =>
    exact walkLoop_cov listing excl fuel ⟨[root], [], []⟩ fl sn h d
      (Or.inr ⟨ihd, List.not_mem_nil d⟩) n hn hend hexcl

/-- The completed walk from the root, characterized: the collected files are
exactly the contributions of the root and of the reachable directories, the
final seen list has no duplicates, and its members are exactly the reachable
directories. -/
theorem walk_final (listing : Path → List Path) (excl : Path → Bool) (root : Path)
    (fuel : Nat) (fl sn : List Path)
    (h : walkLoop listing excl fuel ⟨[root], [], []⟩ = some (fl, sn)) :
    (fl : Multiset Path) = totalFiles listing excl (root :: sn) ∧
      sn.Nodup ∧ (∀ p, p ∈ sn ↔ SeenDir listing excl root p) := by
  obtain ⟨nw, h1, h2, h3⟩ := walkLoop_chara listing excl fuel ⟨[root], [], []⟩ fl sn h
  have hnw : nw = sn := by
    simpa using h1.symm
  subst hnw
  refine ⟨?_, h3 (by simp), fun p => ⟨?_, seenDir_mem listing excl root fuel fl nw h p⟩⟩
  · rw [h2, totalFiles_cons]
    simp only [totalFiles_cons, totalFiles_nil, add_zero, zero_add, Multiset.coe_nil]
  · intro hp
    exact walkLoop_sound listing excl root fuel ⟨[root], [], []⟩ fl nw h
      (by intro q hq; simp at hq; exact Or.inl hq) (by simp) p hp

/-- Reachability depends only on listing membership, so it is preserved when
each directory's listing is permuted. -/
theorem seenDir_congr (l1 l2 : Path → List Path) (excl : Path → Bool) (root : Path)
    (hl : ∀ d, (l1 d).Perm (l2 d)) :
    ∀ p, SeenDir l1 excl root p → SeenDir l2 excl root p := by
  intro p h
  induction h with
  | fromRoot n hn hend hexcl =>
    exact SeenDir.fromRoot n ((hl root).mem_iff.mp hn) hend hexcl
  | step d n _ hn hend hexcl ih =>
    exact SeenDir.step d n ih ((hl d).mem_iff.mp hn) hend hexcl

/-- One directory's file contribution, as a multiset, is unchanged when its
listing is permuted. -/
theorem filesOf_perm (l1 l2 : Path → List Path) (excl : Path → Bool)
    (hl : ∀ d, (l1 d).Perm (l2 d)) (d : Path) :
    (filesOf l1 excl d : Multiset Path) = (filesOf l2 excl d : Multiset Path) := by
  apply Multiset.coe_eq_coe.mpr
  exact ((hl d).filter _).map _

/-- Total file contributions agree across permuted listings and permuted
directory lists. -/
theorem totalFiles_congr (l1 l2 : Path → List Path) (excl : Path → Bool)
    (hl : ∀ d, (l1 d).Perm (l2 d)) (ds1 ds2 : List Path) (hds : ds1.Perm ds2) :
    totalFiles l1 excl ds1 = totalFiles l2 excl ds2 := by
  unfold totalFiles
  have h1 : ds1.map (fun d => (filesOf l1 excl d : Multiset Path)) =
      ds1.map fun d => (filesOf l2 excl d : Multiset Path) :=
    List.map_congr_left fun d _ => filesOf_perm l1 l2 excl hl d
  rw [h1]
  exact (hds.map _).sum_eq

/-- Claim C5: for a fixed remote tree and fixed exclude matcher any two
completed runs of get_file_list return the same list, independent of the
order in which entries appear in the listings, and that list is sorted in
lexicographic codepoint order. -/
theorem get_file_list_deterministic
    (raw1 raw2 : Path → List Path) (excl : Path → Bool) (root : Path)
    (fuel1 fuel2 : Nat) (r1 r2 : List Path)
    (hraw : ∀ d, (raw1 d).Perm (raw2 d))
    (h1 : get_file_list raw1 excl root fuel1 = some r1)
    (h2 : get_file_list raw2 excl root fuel2 = some r2) :
    r1 = r2 ∧ r1.Sorted (· ≤ ·) := by
  unfold get_file_list at h1 h2
  obtain ⟨st1, hw1, hr1⟩ := Option.map_eq_some'.mp h1
  obtain ⟨st2, hw2, hr2⟩ := Option.map_eq_some'.mp h2
  obtain ⟨fl1, sn1⟩ := st1
  obtain ⟨fl2, sn2⟩ := st2
  dsimp only at hr1 hr2
  subst hr1
  subst hr2
  have hld : ∀ d, (list_dir raw1 d).Perm (list_dir raw2 d) :=
    fun d => (hraw d).filter _
  obtain ⟨hm1, hnd1, hiff1⟩ := walk_final (list_dir raw1) excl root fuel1 fl1 sn1 hw1
  obtain ⟨hm2, hnd2, hiff2⟩ := walk_final (list_dir raw2) excl root fuel2 fl2 sn2 hw2
  have hmemiff : ∀ p, p ∈ sn1 ↔ p ∈ sn2 := by
    intro p
    rw [hiff1 p, hiff2 p]
    constructor
    · exact seenDir_congr _ _ excl root hld p
    · exact seenDir_congr _ _ excl root (fun d => (hld d).symm) p
  have hperm : sn1.Perm sn2 := (List.perm_ext_iff_of_nodup hnd1 hnd2).mpr hmemiff
  have hfl : (fl1 : Multiset Path) = (fl2 : Multiset Path) := by
    rw [hm1, hm2]
    exact totalFiles_congr _ _ excl hld _ _ (hperm.cons root)
  have hflp : fl1.Perm fl2 := Multiset.coe_eq_coe.mp hfl
  have hs1 : (sortPaths fl1).Sorted (· ≤ ·) := List.sorted_insertionSort _ fl1
  have hs2 : (sortPaths fl2).Sorted (· ≤ ·) := List.sorted_insertionSort _ fl2
  have hp : (sortPaths fl1).Perm (sortPaths fl2) :=
    ((List.perm_insertionSort _ fl1).trans hflp).trans
      (List.perm_insertionSort _ fl2).symm
  exact ⟨List.eq_of_perm_of_sorted hp hs1 hs2, hs1⟩

/-- Witness for claim C5 at a concrete tree served in two different listing
orders. -/
theorem get_file_list_deterministic_witness :
    fileListP = fileListP ∧ fileListP.Sorted (· ≤ ·) :=
  get_file_list_deterministic rawP1 rawP2 exclNone ['/'] 4 4 fileListP fileListP
    (by
      intro d
      by_cases hd1 : d = ['/']
      · subst hd1
        decide
      · by_cases hd2 : d = ['/', 's', 'u', 'b', '/']
        · subst hd2
          decide
        · simp only [rawP1, rawP2, if_neg hd1, if_neg hd2]
          exact List.Perm.refl _)
    (by decide) (by decide)

/-! ### Retry and aggregation lemmas for claims C3, C4, C7, C10 -/

theorem retryFrom_reaches (fetch : Nat → Option Nat → FetchOutcome)
    (s : DownloadStatus) (hsne : s ≠ .Failed) :
    ∀ (fuel tc : Nat) (fs : FileSystem) (N : Nat), tc ≤ N → N < tc + fuel →
      (∀ i fs1, tc ≤ i → i < N → (download_file (fetch i) fs1).result = .ok .Failed) →
      (∀ fs1, (download_file (fetch N) fs1).result = .ok s) →
      retryStatus (retryFrom fetch tc fuel fs) = .ok s := by
  intro fuel
  induction fuel with
  | zero =>
    intro tc fs N h1 h2 _ _
    omega
  | succ fuel ih =>
    intro tc fs N h1 h2 hfail hlast
    by_cases htc : tc = N
    · subst htc
      have hr := hlast fs
      simp [retryFrom, hr, hsne, retryStatus, Except.map]
    · have htlt : tc < N := by omega
      have hr := hfail tc fs le_rfl htlt
      simp only [retryFrom, hr]
      exact ih (tc + 1) _ N (by omega) (by omega)
        (fun i fs1 hi1 hi2 => hfail i fs1 (by omega) hi2) hlast

theorem retryFrom_all_failed (fetch : Nat → Option Nat → FetchOutcome) :
    ∀ (fuel tc : Nat) (fs : FileSystem),
      (∀ i fs1, tc ≤ i → i < tc + fuel →
        (download_file (fetch i) fs1).result = .ok .Failed) →
      retryStatus (retryFrom fetch tc fuel fs) = .ok .Failed := by
  intro fuel
  induction fuel with
  | zero =>
    intro tc fs _
    simp [retryFrom, retryStatus, Except.map]
  | succ fuel ih =>
    intro tc fs hfail
    have hr := hfail tc fs le_rfl (by omega)
    simp only [retryFrom, hr]
    exact ih (tc + 1) _ (fun i fs1 hi1 hi2 => hfail i fs1 (by omega) (by omega))

theorem countResults_len_exit :
    ∀ (rs : List (Except RunError DownloadStatus)) (d sk f : Nat),
      countResults rs = some (d, sk, f) →
      d + sk + f = rs.length ∧ (0 < f ↔ Except.ok DownloadStatus.Failed ∈ rs) := by
  intro rs
  induction rs with
  | nil =>
    intro d sk f h
    simp only [countResults, Option.some.injEq, Prod.mk.injEq] at h
    obtain ⟨h1, h2, h3⟩ := h
    subst h1; subst h2; subst h3
    simp
  | cons r rest ih =>
    intro d sk f h
    rcases r with e | s
    · simp [countResults] at h
    · rcases hrest : countResults rest with _ | ⟨⟨d0, sk0, f0⟩⟩
      · rw [countResults, hrest] at h
        simp at h
      · rw [countResults, hrest] at h
        rcases s with _ | _ | _ <;> simp at h
        · obtain ⟨h1, h2, h3⟩ := h
          subst h1; subst h2; subst h3
          obtain ⟨ha, hb⟩ := ih d0 sk0 f0 hrest
          constructor
          · simp; omega
          · simpa using hb
        · obtain ⟨h1, h2, h3⟩ := h
          subst h1; subst h2; subst h3
          obtain ⟨ha, hb⟩ := ih d0 sk0 f0 hrest
          constructor
          · simp; omega
          · simpa using hb
        · obtain ⟨h1, h2, h3⟩ := h
          subst h1; subst h2; subst h3
          obtain ⟨ha, hb⟩ := ih d0 sk0 f0 hrest
          constructor
          · simp; omega
          · simp

theorem countResults_error :
    ∀ (rs : List (Except RunError DownloadStatus)) (e : RunError),
      Except.error e ∈ rs → countResults rs = none := by
  intro rs
  induction rs with
  | nil =>
    intro e h
    exact absurd h (List.not_mem_nil _)
  | cons r rest ih =>
    intro e h
    rcases r with e1 | s
    · rfl
    · rcases List.mem_cons.mp h with h1 | h1
      · exact absurd h1 (by simp)
      · rw [countResults, ih e h1]
        rfl

theorem countResults_ok :
    ∀ rs : List (Except RunError DownloadStatus),
      (∀ r ∈ rs, ∃ s, r = Except.ok s) → (countResults rs).isSome = true := by
  intro rs
  induction rs with
  | nil =>
    intro _
    rfl
  | cons r rest ih =>
    intro h
    obtain ⟨s, rfl⟩ := h r (List.mem_cons_self _ _)
    have hrest := ih fun r1 hr1 => h r1 (List.mem_cons_of_mem _ hr1)
    rw [countResults]
    rcases hres : countResults rest with _ | t
    · rw [hres] at hrest
      simp at hrest
    · simp

theorem tmpWrites_dest (fs1 : FileSystem) (chunks : List (List Nat))
    (st : FileSystem) (h : st ∈ tmpWrites fs1 chunks) : st.dest = fs1.dest := by
  obtain ⟨i, _, heq⟩ := List.mem_map.mp h
  rw [← heq]

/-- Claim C3: when the per-attempt download fails on exactly the first
`N - 1` attempts and yields a non-Failed status on attempt `N` within the
configured maximum, the retry wrapper returns that status; when every one of
the configured attempts fails, it returns Failed, and any completed run
containing a Failed outcome has exit code 1. -/
theorem retry_bound :
    (∀ (fetch : Nat → Option Nat → FetchOutcome) (fs0 : FileSystem)
        (num_retries N : Nat) (s : DownloadStatus),
      1 ≤ N → N ≤ num_retries →
      (∀ i fs1, 1 ≤ i → i < N → (download_file (fetch i) fs1).result = .ok .Failed) →
      (∀ fs1, (download_file (fetch N) fs1).result = .ok s) → s ≠ .Failed →
      retryStatus (download_file_with_retry fetch fs0 num_retries) = .ok s) ∧
    (∀ (fetch : Nat → Option Nat → FetchOutcome) (fs0 : FileSystem) (num_retries : Nat),
      (∀ i fs1, 1 ≤ i → i ≤ num_retries →
        (download_file (fetch i) fs1).result = .ok .Failed) →
      retryStatus (download_file_with_retry fetch fs0 num_retries) = .ok .Failed ∧
      ∀ (rs : List (Except RunError DownloadStatus)) (d sk f : Nat),
        Except.ok DownloadStatus.Failed ∈ rs → countResults rs = some (d, sk, f) →
        exit_code f = 1) := by
  constructor
  · intro fetch fs0 num_retries N s hN1 hNn hfail hlast hs
    exact retryFrom_reaches fetch s hs num_retries 1 fs0 N hN1 (by omega) hfail hlast
  · intro fetch fs0 num_retries hfail
    constructor
    · exact retryFrom_all_failed fetch num_retries 1 fs0
        (fun i fs1 h1 h2 => hfail i fs1 h1 (by omega))
    · intro rs d sk f hmem hcount
      obtain ⟨_, hiff⟩ := countResults_len_exit rs d sk f hcount
      have hf : 0 < f := hiff.mpr hmem
      simp [exit_code, hf]

/-- Witness for claim C3: a fetch that fails once then succeeds ends
Downloaded after two attempts; a fetch that always fails ends Failed. -/
theorem retry_bound_witness :
    retryStatus (download_file_with_retry fetchC3 fsEmpty 3) =
      Except.ok DownloadStatus.Success ∧
    retryStatus (download_file_with_retry fetchAll500 fsEmpty 3) =
      Except.ok DownloadStatus.Failed :=
  ⟨retry_bound.1 fetchC3 fsEmpty 3 2 .Success (by omega) (by omega)
      (fun i fs1 h1 h2 => by
        have hi : i = 1 := by omega
        subst hi
        rfl)
      (fun fs1 => rfl) (by decide),
    (retry_bound.2 fetchAll500 fsEmpty 3 (fun i fs1 h1 h2 => rfl)).1⟩

/-- Counterexample to claim C4: a transport-level error is not retried and
does not demote to a per-file Failed outcome — the first attempt's error
propagates out of the retry wrapper, and a run whose results contain it
produces no final counters. -/
theorem transport_error_counterexample :
    retryStatus (download_file_with_retry fetchTE fsEmpty 3) =
      Except.error RunError.transport ∧
    countResults [retryStatus (download_file_with_retry fetchTE fsEmpty 3)] = none :=
  ⟨rfl, rfl⟩

/-- Claim C4 as amended: a transport-level error during the fetch is an
uncaught exception: the retry wrapper propagates it immediately (no further
attempts regardless of the configured maximum), and the run aborts — a
result list containing the error yields no final counters.  Only non-200,
non-304 response statuses are treated as transient and retried. -/
theorem transport_error_aborts
    (fetch : Nat → Option Nat → FetchOutcome) (fs0 : FileSystem) (num_retries : Nat)
    (hn : 1 ≤ num_retries) (h1 : ∀ ims, fetch 1 ims = .transportError) :
    retryStatus (download_file_with_retry fetch fs0 num_retries) =
      Except.error RunError.transport ∧
    ∀ rs : List (Except RunError DownloadStatus),
      Except.error RunError.transport ∈ rs → countResults rs = none := by
  constructor
  · obtain ⟨fuel, rfl⟩ : ∃ k, num_retries = k + 1 := ⟨num_retries - 1, by omega⟩
    have hdf : (download_file (fetch 1) fs0).result = Except.error RunError.transport := by
      simp [download_file, h1 (imsOf fs0)]
    unfold download_file_with_retry
    simp [retryFrom, hdf, retryStatus, Except.map]
  · intro rs hmem
    exact countResults_error rs _ hmem

/-- Witness for the amended claim C4. -/
theorem transport_error_aborts_witness :
    retryStatus (download_file_with_retry fetchTE fsEmpty 2) =
      Except.error RunError.transport ∧
    countResults [Except.error RunError.transport] = none :=
  ⟨(transport_error_aborts fetchTE fsEmpty 2 (by omega) fun _ => rfl).1,
    (transport_error_aborts fetchTE fsEmpty 2 (by omega) fun _ => rfl).2
      [Except.error RunError.transport] (List.mem_cons_self _ _)⟩

/-- Claim C10: a 200 response lacking the Last-Modified header makes
download_file raise (the mandatory header lookup), the error bypasses the
retry wrapper, and a run whose results contain it has no final counters. -/
theorem missing_last_modified_aborts
    (fetch : Nat → Option Nat → FetchOutcome) (fs0 : FileSystem) (r : Response)
    (num_retries : Nat) (hn : 1 ≤ num_retries)
    (h1 : ∀ ims, fetch 1 ims = .response r) (hs : r.status = 200)
    (hlm : r.lastModified = none) :
    (download_file (fetch 1) fs0).result = Except.error RunError.missingLastModified ∧
    retryStatus (download_file_with_retry fetch fs0 num_retries) =
      Except.error RunError.missingLastModified ∧
    ∀ rs : List (Except RunError DownloadStatus),
      Except.error RunError.missingLastModified ∈ rs → countResults rs = none := by
  have hdf : (download_file (fetch 1) fs0).result =
      Except.error RunError.missingLastModified := by
    simp [download_file, h1 (imsOf fs0), hs, hlm]
  refine ⟨hdf, ?_, ?_⟩
  · obtain ⟨fuel, rfl⟩ : ∃ k, num_retries = k + 1 := ⟨num_retries - 1, by omega⟩
    unfold download_file_with_retry
    simp [retryFrom, hdf, retryStatus, Except.map]
  · intro rs hmem
    exact countResults_error rs _ hmem

/-- Witness for claim C10. -/
theorem missing_last_modified_aborts_witness :
    (download_file (fetchNoLM 1) fsEmpty).result =
      Except.error RunError.missingLastModified ∧
    retryStatus (download_file_with_retry fetchNoLM fsEmpty 3) =
      Except.error RunError.missingLastModified :=
  ⟨(missing_last_modified_aborts fetchNoLM fsEmpty resp200NoLM 3 (by omega)
      (fun _ => rfl) rfl rfl).1,
    (missing_last_modified_aborts fetchNoLM fsEmpty resp200NoLM 3 (by omega)
      (fun _ => rfl) rfl rfl).2.1⟩

/-- Claim C7: a run whose per-file syncs all return a status (no uncaught
exception) completes with counters summing to the number of files, and the
exit code is non-zero exactly when some outcome is Failed. -/
theorem run_aggregation :
    (∀ (rs : List (Except RunError DownloadStatus)) (d sk f : Nat),
      countResults rs = some (d, sk, f) →
      d + sk + f = rs.length ∧
        (exit_code f ≠ 0 ↔ Except.ok DownloadStatus.Failed ∈ rs)) ∧
    (∀ rs : List (Except RunError DownloadStatus),
      (∀ r ∈ rs, ∃ s, r = Except.ok s) → (countResults rs).isSome = true) := by
  constructor
  · intro rs d sk f h
    obtain ⟨hlen, hiff⟩ := countResults_len_exit rs d sk f h
    refine ⟨hlen, ?_⟩
    rw [← hiff]
    unfold exit_code
    by_cases hf : 0 < f
    · simp [hf]
    · simp [hf]
  · exact countResults_ok

/-- Witness for claim C7 on a three-file run with one failure. -/
theorem run_aggregation_witness :
    (1 : Nat) + 1 + 1 =
        ([Except.ok DownloadStatus.Success, Except.ok DownloadStatus.Skipped,
          Except.ok DownloadStatus.Failed] :
          List (Except RunError DownloadStatus)).length ∧
      (exit_code 1 ≠ 0 ↔ Except.ok DownloadStatus.Failed ∈
        ([Except.ok DownloadStatus.Success, Except.ok DownloadStatus.Skipped,
          Except.ok DownloadStatus.Failed] :
          List (Except RunError DownloadStatus))) :=
  run_aggregation.1
    [Except.ok DownloadStatus.Success, Except.ok DownloadStatus.Skipped,
      Except.ok DownloadStatus.Failed] 1 1 1 rfl

/-- Claim C6: syncing a fixed unchanged remote file (content and
Last-Modified constant, the server honouring If-Modified-Since with 304)
into an initially absent destination yields Downloaded then Skipped, and
after both runs the destination bytes and modification time are those of the
remote file. -/
theorem sync_idempotent
    (server : Option Nat → FetchOutcome) (chunks : List (List Nat)) (lm : Nat)
    (fs0 : FileSystem) (hdest : fs0.dest = none)
    (h200 : server none = .response ⟨200, some lm, chunks⟩)
    (h304 : ∀ t, lm ≤ t → ∃ r, server (some t) = .response r ∧ r.status = 304) :
    (download_file server fs0).result = Except.ok DownloadStatus.Success ∧
    (download_file server (download_file server fs0).finalFs).result =
      Except.ok DownloadStatus.Skipped ∧
    (download_file server fs0).finalFs.dest = some ⟨chunks.flatten, lm⟩ ∧
    (download_file server (download_file server fs0).finalFs).finalFs.dest =
      some ⟨chunks.flatten, lm⟩ := by
  have hims0 : imsOf fs0 = none := by
    simp [imsOf, hdest]
  have hfinal : (download_file server fs0).finalFs =
      ⟨true, some ⟨chunks.flatten, lm⟩, none⟩ := by
    simp [download_file, hims0, h200]
  have hres1 : (download_file server fs0).result = Except.ok DownloadStatus.Success := by
    simp [download_file, hims0, h200]
  obtain ⟨r2, hr2, hs2⟩ := h304 lm le_rfl
  have hims1 : imsOf (download_file server fs0).finalFs = some lm := by
    rw [hfinal]
    rfl
  have hs2ne : r2.status ≠ 200 := by
    rw [hs2]
    omega
  refine ⟨hres1, ?_, ?_, ?_⟩
  · rw [hfinal]
    simp [download_file, imsOf, hr2, hs2, hs2ne]
  · rw [hfinal]
  · rw [hfinal]
    simp [download_file, imsOf, hr2, hs2, hs2ne]

/-- Witness for claim C6 against the honest fixed-file server serverC6. -/
theorem sync_idempotent_witness :
    (download_file serverC6 fsEmpty).result = Except.ok DownloadStatus.Success ∧
    (download_file serverC6 (download_file serverC6 fsEmpty).finalFs).result =
      Except.ok DownloadStatus.Skipped ∧
    (download_file serverC6 fsEmpty).finalFs.dest =
      some ⟨([[7], [8]] : List (List Nat)).flatten, 5⟩ ∧
    (download_file serverC6 (download_file serverC6 fsEmpty).finalFs).finalFs.dest =
      some ⟨([[7], [8]] : List (List Nat)).flatten, 5⟩ :=
  sync_idempotent serverC6 [[7], [8]] 5 fsEmpty rfl rfl
    (fun t ht => ⟨resp304, by simp [serverC6, ht], rfl⟩)

/-- Claim C8: at every intermediate state of a file transfer — including
after the temporary file is created but before the rename — the destination
path holds the pre-transfer content; only the final atomic rename replaces
it, with the complete new file. -/
theorem atomic_publish
    (fetch : Option Nat → FetchOutcome) (fs0 st : FileSystem)
    (hst : st ∈ (download_file fetch fs0).trace) :
    st.dest = fs0.dest ∨ completeNewFile fetch fs0 st.dest := by
  rcases hf : fetch (imsOf fs0) with r | _
  · by_cases h200 : r.status = 200
    · rcases hlm : r.lastModified with _ | lm
      · left
        simp [download_file, hf, h200, hlm] at hst
        rw [hst]
      · simp [download_file, hf, h200, hlm] at hst
        rcases hst with hst | hst | hst | hst
        · left
          rw [hst]
        · left
          rw [tmpWrites_dest _ r.body st hst]
        · left
          rw [hst]
        · right
          exact ⟨r, lm, hf, hlm, by rw [hst]⟩
    · left
      by_cases h304 : r.status = 304
      · simp [download_file, hf, h200, h304] at hst
        rw [hst]
      · simp [download_file, hf, h200, h304] at hst
        rw [hst]
  · left
    simp [download_file, hf] at hst
    rw [hst]

/-- Witness for claim C8 at the state after the atomic rename of a concrete
transfer. -/
theorem atomic_publish_witness :
    stC8.dest = fsEmpty.dest ∨ completeNewFile fetchOk fsEmpty stC8.dest :=
  atomic_publish fetchOk fsEmpty stC8 (by decide)

/-- Counterexample to claim C9: for a file whose fetch answers 500 — outcome
Failed — the missing destination parent directory is still created (the
state after makedirs has dirExists, before any response is consulted), while
the claim allows directory creation only after a success response. -/
theorem makedirs_for_failed_counterexample :
    (download_file (fetchAll500 1) fsEmpty).result = Except.ok DownloadStatus.Failed ∧
    fsEmpty.dirExists = false ∧
    (download_file (fetchAll500 1) fsEmpty).trace =
      [{ dirExists := true, dest := none, tmp := none }] :=
  ⟨rfl, rfl, rfl⟩

/-- Claim C9 as amended: the destination parent directories are created
unconditionally as the first effect of every transfer, before the response
is consulted and also for transfers that end Skipped or Failed; apart from
that directory creation, a transfer that ends Skipped performs no write —
its only filesystem state is the post-makedirs one, and the destination and
temporary files are untouched. -/
theorem makedirs_unconditional
    (fetch : Option Nat → FetchOutcome) (fs0 : FileSystem) :
    (download_file fetch fs0).trace.head? = some { fs0 with dirExists := true } ∧
    ((download_file fetch fs0).result = Except.ok DownloadStatus.Skipped →
      (download_file fetch fs0).trace = [{ fs0 with dirExists := true }] ∧
      (download_file fetch fs0).finalFs.dest = fs0.dest ∧
      (download_file fetch fs0).finalFs.tmp = fs0.tmp) := by
  rcases hf : fetch (imsOf fs0) with r | _
  · by_cases h200 : r.status = 200
    · rcases hlm : r.lastModified with _ | lm
      · refine ⟨by simp [download_file, hf, h200, hlm], ?_⟩
        intro hres
        simp [download_file, hf, h200, hlm] at hres
      · refine ⟨by simp [download_file, hf, h200, hlm], ?_⟩
        intro hres
        simp [download_file, hf, h200, hlm] at hres
    · by_cases h304 : r.status = 304
      · exact ⟨by simp [download_file, hf, h200, h304],
          fun _ => ⟨by simp [download_file, hf, h200, h304],
            by simp [download_file, hf, h200, h304],
            by simp [download_file, hf, h200, h304]⟩⟩
      · refine ⟨by simp [download_file, hf, h200, h304], ?_⟩
        intro hres
        simp [download_file, hf, h200, h304] at hres
  · refine ⟨by simp [download_file, hf], ?_⟩
    intro hres
    simp [download_file, hf] at hres

/-- Witness for the amended claim C9 on a 304 answer. -/
theorem makedirs_unconditional_witness :
    (download_file fetch304 fsEmpty).trace.head? =
      some { fsEmpty with dirExists := true } ∧
    (download_file fetch304 fsEmpty).trace = [{ fsEmpty with dirExists := true }] ∧
    (download_file fetch304 fsEmpty).finalFs.dest = fsEmpty.dest ∧
    (download_file fetch304 fsEmpty).finalFs.tmp = fsEmpty.tmp :=
  ⟨(makedirs_unconditional fetch304 fsEmpty).1,
    (makedirs_unconditional fetch304 fsEmpty).2 rfl⟩

end MyrientSync
